import Mathlib

/-!
Shallow embedding of `gostd_settings` (src/src/lib.rs), a small
".properties"-style key/value store.

Strings are modelled as `List Char` (`Str`).  The store's
`Mutex<HashMap<String, String>>` is modelled as an insertion-ordered
association list with pairwise-distinct keys (`KeysNodup` is the invariant
the Rust `HashMap` maintains by construction); `HashMap` iteration order is
unspecified, the model fixes insertion order as one admissible order.

`gostd::strings` mirrors Go's standard library: `Split` splits on every
occurrence of the separator (`splitOnChar`), `Join` interleaves the
separator (`joinSep`), `TrimSpace` trims Unicode whitespace on both ends
(`trimSpace` over `isSpace`, Go's `unicode.IsSpace`).

Fallibility: `Properties::parse_line` indexes `split_strs[1]` without a
bounds check, so a non-comment line with no `=` panics; the embedding makes
this explicit, `parse_line`/`load` return `Option` and `none` is the panic.
`load` reads lines with `BufReader::read_line`, which yields each line
including its terminator and yields a final unterminated line; since
`parse_line` first trims the line, `linesOf` drops the terminators directly
and drops the empty final piece produced by a trailing newline.
-/

namespace GostdSettings

set_option maxRecDepth 4000

abbrev Str := List Char

/-- Character data of a Lean string literal, for writing concrete inputs. -/
def str (s : String) : Str := s.data

/-- Go `unicode.IsSpace` (the whitespace set trimmed by `strings::TrimSpace`). -/
def isSpace (c : Char) : Bool :=
  c = ' ' || c = '\t' || c = '\n' || c = '\x0b' || c = '\x0c' || c = '\r' ||
  c = '\u0085' || c = '\u00a0' || c = '\u1680' ||
  (0x2000 ≤ c.toNat && c.toNat ≤ 0x200a) ||
  c = '\u2028' || c = '\u2029' || c = '\u202f' || c = '\u205f' || c = '\u3000'

/-- Leading-whitespace trim (left half of Go `strings::TrimSpace`). -/
def trimLeft (s : Str) : Str := s.dropWhile isSpace

/-- Trailing-whitespace trim (right half of Go `strings::TrimSpace`). -/
def trimRight (s : Str) : Str := (s.reverse.dropWhile isSpace).reverse

/-- Go `strings::TrimSpace`. -/
def trimSpace (s : Str) : Str := trimRight (trimLeft s)

/-- Go `strings::Split` with a one-character separator: splits around every
occurrence of `c`, always returning (number of occurrences + 1) pieces. -/
def splitOnChar (c : Char) : Str → List Str
  | [] => [[]]
  | x :: xs =>
    if x = c then [] :: splitOnChar c xs
    else
      match splitOnChar c xs with
      | [] => [[x]]
      | p :: ps => (x :: p) :: ps

/-- Go `strings::Join` with a one-character separator. -/
def joinSep (c : Char) : List Str → Str
  | [] => []
  | [x] => x
  | x :: y :: xs => x ++ c :: joinSep c (y :: xs)

/-- The store contents: `HashMap<String, String>` as an association list. -/
abbrev Store := List (Str × Str)

/-- Model of HashMap insert: overwrite the value of an existing key in place,
otherwise append a new entry. -/
def insertKV : Store → Str → Str → Store
  | [], k, v => [(k, v)]
  | (k0, v0) :: rest, k, v =>
    if k0 = k then (k, v) :: rest else (k0, v0) :: insertKV rest k v

/-- Model of HashMap get (cloned): the value stored under `k`, if any. -/
def lookupKV : Store → Str → Option Str
  | [], _ => none
  | (k0, v0) :: rest, k => if k0 = k then some v0 else lookupKV rest k

/-- The `HashMap` invariant of the Rust store: keys are pairwise distinct. -/
abbrev KeysNodup (st : Store) : Prop := (st.map Prod.fst).Nodup

/-- Source method `Settings::set_property` of `Properties` (src/src/lib.rs:242). -/
def set_property (st : Store) (key value : Str) : Store := insertKV st key value

/-- Source method `Settings::property` of `Properties` (src/src/lib.rs:218). -/
def property (st : Store) (key : Str) : Option Str := lookupKV st key

/-- Source method `Settings::property_slice` (src/src/lib.rs:225): Split the raw value on `,`. -/
def property_slice (st : Store) (key : Str) : Option (List Str) :=
  (lookupKV st key).map (fun v => splitOnChar ',' v)

/-- Source method `Settings::set_property_slice` (src/src/lib.rs:237): Join values with `,`. -/
def set_property_slice (st : Store) (key : Str) (values : List Str) : Store :=
  set_property st key (joinSep ',' values)

/-- Source method `Settings::property_names` (src/src/lib.rs:290). -/
def property_names (st : Store) : List Str := st.map Prod.fst

/-- Source method `Properties::line` (src/src/lib.rs:185): serialize one entry. -/
def line (key value : Str) : Str := key ++ str (" = ") ++ value ++ ['\n']

/-- The prefix tests of `Properties::is_comment_line` (src/src/lib.rs:207):
`HasPrefix` against `"#"`, `"//"`, `"/*"`. -/
def commentPrefix (l : Str) : Bool :=
  ['#'].isPrefixOf l || ['/', '/'].isPrefixOf l || ['/', '*'].isPrefixOf l

/-- Source method `Properties::is_comment_line` (src/src/lib.rs:203); its argument is the
already-trimmed line. -/
def is_comment_line (l : Str) : Bool :=
  if l.length = 0 then true else commentPrefix l

/-- Source method `Properties::parse_line` (src/src/lib.rs:192); `none` models the panic of
the unchecked index `split_strs[1]` when the split yields a single piece. -/
def parse_line (st : Store) (l : Str) : Option Store :=
  let t := trimSpace l
  if is_comment_line t then some st
  else
    match splitOnChar '=' t with
    | a :: b :: _ => some (set_property st (trimSpace a) (trimSpace b))
    | _ => none

/-- The line sequence `BufReader::read_line` yields, minus the terminators
(which `parse_line` would trim away anyway). -/
def linesOf (s : Str) : List Str :=
  let ps := splitOnChar '\n' s
  if ps.getLast? = some [] then ps.dropLast else ps

/-- Source method `Settings::load` (src/src/lib.rs:249): feed every line through
`parse_line`; `none` models the parse panic aborting the process. -/
def load (st : Store) (s : Str) : Option Store :=
  (linesOf s).foldlM parse_line st

/-- Source method `Settings::store` (src/src/lib.rs:273): one `line` per entry, in the
model's (insertion) order. -/
def store (st : Store) : Str :=
  st.foldl (fun buf p => buf ++ line p.1 p.2) []

/-- The piece of `s` before the first occurrence of `c` (head of the split). -/
def takeUntil (c : Char) : Str → Str
  | [] => []
  | x :: xs => if x = c then [] else x :: takeUntil c xs

/-- Suffix of `s` from the first occurrence of `c` on (empty if `c` is absent). -/
def dropUntil (c : Char) : Str → Str
  | [] => []
  | x :: xs => if x = c then x :: xs else dropUntil c xs

/-- The key a line would insert on a successful parse: `none` for
blank/comment lines, otherwise the trimmed text before the first `=`. -/
def lineKeyOf (l : Str) : Option Str :=
  let t := trimSpace l
  if is_comment_line t then none
  else some (trimSpace (takeUntil '=' t))

/-- All keys an input stream would insert. -/
def inputKeys (s : Str) : List Str := (linesOf s).filterMap lineKeyOf

/-- States reachable through the public mutating API. -/
inductive Reachable : Store → Prop
  | empty : Reachable []
  | set (st : Store) (k v : Str) : Reachable st → Reachable (set_property st k v)
  | setSlice (st : Store) (k : Str) (vs : List Str) :
      Reachable st → Reachable (set_property_slice st k vs)
  | loadOk (st : Store) (s : Str) (st2 : Store) :
      Reachable st → load st s = some st2 → Reachable st2

theorem splitOnChar_ne_nil (c : Char) : ∀ t : Str, splitOnChar c t ≠ []
  | [] => by simp [splitOnChar]
  | x :: xs => by
    simp only [splitOnChar]
    split
    · simp
    · split <;> simp

theorem takeUntil_not_mem {c : Char} {t : Str} (h : c ∉ t) : takeUntil c t = t := by
  induction t with
  | nil => rfl
  | cons x xs ih =>
    simp only [List.mem_cons, not_or] at h
    rw [takeUntil, if_neg (fun hx => h.1 hx.symm), ih h.2]

theorem splitOnChar_not_mem {c : Char} {t : Str} (h : c ∉ t) : splitOnChar c t = [t] := by
  induction t with
  | nil => rfl
  | cons x xs ih =>
    simp only [List.mem_cons, not_or] at h
    rw [splitOnChar, if_neg (fun hx => h.1 hx.symm), ih h.2]

theorem splitOnChar_mem {c : Char} {t : Str} (h : c ∈ t) :
    splitOnChar c t = takeUntil c t :: splitOnChar c ((dropUntil c t).tail) := by
  induction t with
  | nil => cases h
  | cons x xs ih =>
    by_cases hx : x = c
    · subst hx
      simp [splitOnChar, takeUntil, dropUntil]
    · have hc : c ∈ xs := by
        rcases List.mem_cons.1 h with h1 | h2
        · exact absurd h1.symm hx
        · exact h2
      rw [splitOnChar, if_neg hx, ih hc, takeUntil, if_neg hx, dropUntil, if_neg hx]

theorem splitOnChar_append {c : Char} {l : Str} (h : c ∉ l) (r : Str) :
    splitOnChar c (l ++ c :: r) = l :: splitOnChar c r := by
  induction l with
  | nil => simp [splitOnChar]
  | cons x xs ih =>
    simp only [List.mem_cons, not_or] at h
    rw [List.cons_append, splitOnChar, if_neg (fun hx => h.1 hx.symm), ih h.2]

theorem linesOf_nil : linesOf [] = [] := by decide

theorem linesOf_append {l : Str} (h : '\n' ∉ l) (r : Str) :
    linesOf (l ++ '\n' :: r) = l :: linesOf r := by
  have hsp : splitOnChar '\n' (l ++ '\n' :: r) = l :: splitOnChar '\n' r :=
    splitOnChar_append h r
  obtain ⟨p, ps, hps⟩ : ∃ p ps, splitOnChar '\n' r = p :: ps := by
    rcases hq : splitOnChar '\n' r with _ | ⟨p, ps⟩
    · exact absurd hq (splitOnChar_ne_nil '\n' r)
    · exact ⟨p, ps, rfl⟩
  rw [linesOf, linesOf, hsp, hps, List.getLast?_cons_cons, List.dropLast_cons₂]
  split <;> rfl

theorem isSpace_space : isSpace ' ' = true := by decide

theorem isSpace_nl : isSpace '\n' = true := by decide

theorem trimLeft_eq_dropWhile (s : Str) : trimLeft s = s.dropWhile isSpace := rfl

theorem head_not_space {x : Char} {s : Str} (h : (x :: s).dropWhile isSpace = x :: s) :
    isSpace x = false := by
  by_contra hx
  have hx2 : isSpace x = true := by
    cases hb : isSpace x
    · exact absurd hb hx
    · rfl
  rw [List.dropWhile_cons_of_pos hx2] at h
  have hlen := congrArg List.length h
  have hle : (List.dropWhile isSpace s).length ≤ s.length :=
    (List.dropWhile_suffix isSpace).sublist.length_le
  simp only [List.length_cons] at hlen
  omega

theorem trimLeft_of_trimSpace {s : Str} (h : trimSpace s = s) : trimLeft s = s := by
  have hsfx : trimLeft s <:+ s := List.dropWhile_suffix isSpace
  have hsub : List.Sublist (trimSpace s) (trimLeft s) := by
    have : List.Sublist ((trimLeft s).reverse.dropWhile isSpace) (trimLeft s).reverse :=
      (List.dropWhile_suffix isSpace).sublist
    have h2 := this.reverse
    simpa [trimSpace, trimRight] using h2
  have hlen1 : (trimSpace s).length ≤ (trimLeft s).length := hsub.length_le
  have hlen2 : (trimLeft s).length ≤ s.length := hsfx.sublist.length_le
  have hlen3 : (trimSpace s).length = s.length := by rw [h]
  exact hsfx.eq_of_length (by omega)

theorem trimRight_of_trimSpace {s : Str} (h : trimSpace s = s) : trimRight s = s := by
  have hL := trimLeft_of_trimSpace h
  calc trimRight s = trimRight (trimLeft s) := by rw [hL]
    _ = s := h

theorem trimRight_rev {s : Str} (h : trimRight s = s) :
    s.reverse.dropWhile isSpace = s.reverse := by
  have h2 := congrArg List.reverse h
  simpa [trimRight] using h2

theorem trimRight_append {v : Str} (hv : trimRight v = v) (hne : v ≠ []) (lft : Str) :
    trimRight (lft ++ v) = lft ++ v := by
  obtain ⟨b, w, hw⟩ : ∃ b w, v.reverse = b :: w := by
    rcases hq : v.reverse with _ | ⟨b, w⟩
    · exact absurd (by simpa using congrArg List.reverse hq) hne
    · exact ⟨b, w, rfl⟩
  have hb : isSpace b = false := by
    apply head_not_space (s := w)
    rw [← hw]
    exact trimRight_rev hv
  have hb2 : ¬ (isSpace b = true) := by simp [hb]
  rw [trimRight, List.reverse_append, hw, List.cons_append,
    List.dropWhile_cons_of_neg hb2, ← List.cons_append, ← hw, ← List.reverse_append,
    List.reverse_reverse]

theorem trimLeft_cons_not_space {a : Char} {k : Str} (ha : isSpace a = false) (r : Str) :
    trimLeft (a :: k ++ r) = a :: k ++ r := by
  have ha2 : ¬ (isSpace a = true) := by simp [ha]
  rw [trimLeft, List.cons_append, List.dropWhile_cons_of_neg ha2]

theorem trimSpace_append_space {k : Str} (h : trimSpace k = k) : trimSpace (k ++ [' ']) = k := by
  have hR := trimRight_rev (trimRight_of_trimSpace h)
  cases k with
  | nil => decide
  | cons a k2 =>
    have ha : isSpace a = false :=
      head_not_space (s := k2)
        (show (a :: k2).dropWhile isSpace = a :: k2 from trimLeft_of_trimSpace h)
    rw [trimSpace, trimLeft_cons_not_space ha, trimRight, List.reverse_append]
    simp only [List.reverse_cons, List.reverse_nil, List.nil_append, List.cons_append,
      List.nil_append]
    rw [List.dropWhile_cons_of_pos (by simp [isSpace_space])]
    have hR2 : List.dropWhile isSpace (k2.reverse ++ [a]) = k2.reverse ++ [a] := by
      simpa using hR
    rw [hR2]
    simp

theorem trimSpace_space_cons {v : Str} (h : trimSpace v = v) : trimSpace (' ' :: v) = v := by
  have hL := trimLeft_of_trimSpace h
  have hR := trimRight_of_trimSpace h
  rw [trimSpace, trimLeft, List.dropWhile_cons_of_pos (by simp [isSpace_space])]
  rw [trimLeft] at hL
  rw [hL]
  exact hR

theorem lookup_insert_self (st : Store) (k v : Str) :
    lookupKV (insertKV st k v) k = some v := by
  induction st with
  | nil => simp [insertKV, lookupKV]
  | cons p rest ih =>
    obtain ⟨k0, v0⟩ := p
    rw [insertKV]
    split
    · simp [lookupKV]
    · next hne => simp [lookupKV, hne, ih]

theorem lookup_insert_ne {k k2 : Str} (hne : k ≠ k2) (st : Store) (v : Str) :
    lookupKV (insertKV st k2 v) k = lookupKV st k := by
  induction st with
  | nil => simp [insertKV, lookupKV, Ne.symm hne]
  | cons p rest ih =>
    obtain ⟨k0, v0⟩ := p
    by_cases h02 : k0 = k2
    · subst h02
      rw [insertKV, if_pos rfl]
      have hk0 : k0 ≠ k := fun he => hne (he.symm)
      simp [lookupKV, hk0]
    · rw [insertKV, if_neg h02]
      by_cases hk : k0 = k <;> simp [lookupKV, hk, ih]

theorem mem_keys_insert {k1 k v : Str} {st : Store} :
    k1 ∈ property_names (insertKV st k v) ↔ k1 = k ∨ k1 ∈ property_names st := by
  induction st with
  | nil => simp [insertKV, property_names]
  | cons p rest ih =>
    obtain ⟨k0, v0⟩ := p
    by_cases h02 : k0 = k
    · subst h02
      rw [insertKV, if_pos rfl]
      simp only [property_names, List.map_cons, List.mem_cons]
      tauto
    · rw [insertKV, if_neg h02]
      simp only [property_names, List.map_cons, List.mem_cons] at ih ⊢
      rw [ih]
      tauto

theorem keys_nodup_insert {st : Store} {k v : Str} (h : KeysNodup st) :
    KeysNodup (insertKV st k v) := by
  induction st with
  | nil => simp [insertKV, KeysNodup]
  | cons p rest ih =>
    obtain ⟨k0, v0⟩ := p
    simp only [KeysNodup, List.map_cons, List.nodup_cons] at h
    by_cases h02 : k0 = k
    · subst h02
      rw [insertKV, if_pos rfl]
      simpa [KeysNodup] using h
    · rw [insertKV, if_neg h02]
      have h2 := ih h.2
      simp only [KeysNodup, List.map_cons, List.nodup_cons]
      refine ⟨?_, h2⟩
      intro hmem
      rcases (@mem_keys_insert k0 k v rest).1 hmem with h3 | h3
      · exact h02 h3
      · exact h.1 h3

theorem lookup_eq_none_of_not_mem {st : Store} {k : Str} (h : k ∉ property_names st) :
    lookupKV st k = none := by
  induction st with
  | nil => rfl
  | cons p rest ih =>
    obtain ⟨k0, v0⟩ := p
    simp only [property_names, List.map_cons, List.mem_cons, not_or] at h
    rw [lookupKV, if_neg (fun he => h.1 he.symm)]
    exact ih h.2

theorem mem_of_lookup_some {st : Store} {k v : Str} (h : lookupKV st k = some v) :
    k ∈ property_names st := by
  induction st with
  | nil => cases h
  | cons p rest ih =>
    obtain ⟨k0, v0⟩ := p
    simp only [property_names, List.map_cons, List.mem_cons]
    rw [lookupKV] at h
    by_cases h0 : k0 = k
    · exact Or.inl h0.symm
    · rw [if_neg h0] at h
      exact Or.inr (ih h)

theorem lookup_some_of_mem {st : Store} {k : Str} (h : k ∈ property_names st) :
    ∃ v, lookupKV st k = some v := by
  induction st with
  | nil => simp [property_names] at h
  | cons p rest ih =>
    obtain ⟨k0, v0⟩ := p
    by_cases h0 : k0 = k
    · exact ⟨v0, by rw [lookupKV, if_pos h0]⟩
    · simp only [property_names, List.map_cons, List.mem_cons] at h
      rcases h with h1 | h2
      · exact absurd h1.symm h0
      · obtain ⟨v, hv⟩ := ih h2
        exact ⟨v, by rw [lookupKV, if_neg h0]; exact hv⟩

theorem lookup_of_mem_nodup {st : Store} {k v : Str} (hn : KeysNodup st) (hm : (k, v) ∈ st) :
    lookupKV st k = some v := by
  induction st with
  | nil => cases hm
  | cons p rest ih =>
    obtain ⟨k0, v0⟩ := p
    simp only [KeysNodup, List.map_cons, List.nodup_cons] at hn
    rcases List.mem_cons.1 hm with he | hm2
    · injection he with he1 he2
      subst he1; subst he2
      rw [lookupKV, if_pos rfl]
    · have hkmem : k ∈ List.map Prod.fst rest := List.mem_map.2 ⟨(k, v), hm2, rfl⟩
      have hne : k0 ≠ k := fun he => hn.1 (he ▸ hkmem)
      rw [lookupKV, if_neg hne]
      exact ih hn.2 hm2

theorem insert_append_of_not_mem {st : Store} {k : Str} (h : k ∉ property_names st) (v : Str) :
    insertKV st k v = st ++ [(k, v)] := by
  induction st with
  | nil => rfl
  | cons p rest ih =>
    obtain ⟨k0, v0⟩ := p
    simp only [property_names, List.map_cons, List.mem_cons, not_or] at h
    rw [insertKV, if_neg (fun he => h.1 he.symm), ih h.2, List.cons_append]

theorem splitOnChar_joinSep {c : Char} {vs : List Str} (hne : vs ≠ [])
    (hc : ∀ e ∈ vs, c ∉ e) : splitOnChar c (joinSep c vs) = vs := by
  induction vs with
  | nil => cases hne rfl
  | cons x xs ih =>
    cases xs with
    | nil => rw [joinSep, splitOnChar_not_mem (hc x (by simp))]
    | cons y ys =>
      rw [joinSep, splitOnChar_append (hc x (by simp)),
        ih (by simp) (fun e he => hc e (List.mem_cons_of_mem _ he))]

theorem splitOnChar_head (c : Char) (t : Str) : ∃ r, splitOnChar c t = takeUntil c t :: r := by
  by_cases h : c ∈ t
  · exact ⟨_, splitOnChar_mem h⟩
  · refine ⟨[], ?_⟩
    rw [splitOnChar_not_mem h, takeUntil_not_mem h]

theorem parse_line_comment {st : Store} {l : Str} (h : is_comment_line (trimSpace l) = true) :
    parse_line st l = some st := by
  simp [parse_line, h]

theorem parse_line_data {st : Store} {l : Str} (hc : is_comment_line (trimSpace l) = false)
    (he : '=' ∈ trimSpace l) :
    parse_line st l = some (set_property st (trimSpace (takeUntil '=' (trimSpace l)))
      (trimSpace (takeUntil '=' ((dropUntil '=' (trimSpace l)).tail)))) := by
  obtain ⟨r2, hr2⟩ := splitOnChar_head '=' ((dropUntil '=' (trimSpace l)).tail)
  simp [parse_line, hc, splitOnChar_mem he, hr2]

theorem parse_line_no_eq {st : Store} {l : Str} (hc : is_comment_line (trimSpace l) = false)
    (he : '=' ∉ trimSpace l) : parse_line st l = none := by
  simp [parse_line, hc, splitOnChar_not_mem he]

theorem commentPrefix_append_space {a : Char} {k : Str} (hk : commentPrefix (a :: k) = false)
    (rest : Str) : commentPrefix (a :: k ++ ' ' :: rest) = false := by
  cases k with
  | nil => simp_all [commentPrefix, List.isPrefixOf]
  | cons b k2 =>
    simp_all [commentPrefix, List.isPrefixOf]
    tauto

theorem commentPrefix_eq_cons (rest : Str) : commentPrefix ('=' :: rest) = false := by
  simp [commentPrefix, List.isPrefixOf]

theorem is_comment_line_cons_false {a : Char} {k : Str}
    (h : commentPrefix (a :: k) = false) : is_comment_line (a :: k) = false := by
  rw [is_comment_line, if_neg (by simp), h]

theorem parse_line_eval {st : Store} {l t a b : Str} {r : List Str}
    (ht : trimSpace l = t) (hcc : is_comment_line t = false)
    (hsp : splitOnChar '=' t = a :: b :: r) :
    parse_line st l = some (set_property st (trimSpace a) (trimSpace b)) := by
  simp [parse_line, ht, hcc, hsp]

theorem parse_line_line (st : Store) {k v : Str}
    (hk_trim : trimSpace k = k) (hv_trim : trimSpace v = v)
    (hk_eq : '=' ∉ k) (hv_eq : '=' ∉ v)
    (hk_cp : commentPrefix k = false) :
    parse_line st (k ++ str (" = ") ++ v) = some (insertKV st k v) := by
  have hm : k ++ str (" = ") ++ v = k ++ ' ' :: '=' :: ' ' :: v := by
    have hs : str (" = ") = [' ', '=', ' '] := rfl
    rw [hs, List.append_assoc]
    rfl
  rw [hm]
  cases k with
  | nil =>
    cases v with
    | nil =>
      rw [parse_line_eval (t := ['=']) (a := []) (b := []) (r := [])
        (by decide) (by decide) (by decide)]
      rfl
    | cons b v2 =>
      have ht : trimSpace (([] : Str) ++ ' ' :: '=' :: ' ' :: (b :: v2)) =
          '=' :: ' ' :: b :: v2 := by
        rw [List.nil_append, trimSpace, trimLeft,
          List.dropWhile_cons_of_pos (by simp [isSpace_space]),
          List.dropWhile_cons_of_neg (by decide)]
        exact trimRight_append (trimRight_of_trimSpace hv_trim) (by simp) ['=', ' ']
      have hcc : is_comment_line ('=' :: ' ' :: b :: v2) = false :=
        is_comment_line_cons_false (commentPrefix_eq_cons _)
      have hsp : splitOnChar '=' ('=' :: ' ' :: b :: v2) = [[], ' ' :: b :: v2] := by
        rw [splitOnChar, if_pos rfl, splitOnChar_not_mem (by
          intro hmem
          rcases List.mem_cons.1 hmem with h | h
          · exact absurd h (by decide)
          · exact hv_eq h)]
      rw [parse_line_eval ht hcc hsp, trimSpace_space_cons hv_trim]
      rfl
  | cons a k2 =>
    have ha : isSpace a = false :=
      head_not_space (s := k2)
        (show (a :: k2).dropWhile isSpace = a :: k2 from trimLeft_of_trimSpace hk_trim)
    have hkeq2 : '=' ∉ (a :: k2) ++ [' '] := by
      intro hmem
      rcases List.mem_append.1 hmem with h | h
      · exact hk_eq h
      · exact absurd h (by decide)
    have hkey : trimSpace ((a :: k2) ++ [' ']) = a :: k2 := trimSpace_append_space hk_trim
    cases v with
    | nil =>
      have ht : trimSpace ((a :: k2) ++ ' ' :: '=' :: ' ' :: ([] : Str)) =
          (a :: k2) ++ [' ', '='] := by
        rw [trimSpace, trimLeft_cons_not_space ha, trimRight, List.reverse_append]
        simp only [List.reverse_cons, List.reverse_nil, List.nil_append, List.cons_append]
        rw [List.dropWhile_cons_of_pos (by simp [isSpace_space]),
          List.dropWhile_cons_of_neg (by decide)]
        simp
      have hcc : is_comment_line ((a :: k2) ++ [' ', '=']) = false := by
        rw [List.cons_append]
        exact is_comment_line_cons_false (commentPrefix_append_space hk_cp ['='])
      have hsp : splitOnChar '=' ((a :: k2) ++ [' ', '=']) = [(a :: k2) ++ [' '], []] := by
        have hshape : (a :: k2) ++ [' ', '='] = ((a :: k2) ++ [' ']) ++ '=' :: [] := by simp
        rw [hshape, splitOnChar_append hkeq2]
        rfl
      rw [parse_line_eval ht hcc hsp, hkey]
      rfl
    | cons b v2 =>
      have ht : trimSpace ((a :: k2) ++ ' ' :: '=' :: ' ' :: (b :: v2)) =
          (a :: k2) ++ ' ' :: '=' :: ' ' :: (b :: v2) := by
        rw [trimSpace, trimLeft_cons_not_space ha]
        have hshape : (a :: k2) ++ ' ' :: '=' :: ' ' :: (b :: v2) =
            ((a :: k2) ++ [' ', '=', ' ']) ++ (b :: v2) := by simp
        rw [hshape, trimRight_append (trimRight_of_trimSpace hv_trim) (by simp), ← hshape]
      have hcc : is_comment_line ((a :: k2) ++ ' ' :: '=' :: ' ' :: (b :: v2)) = false := by
        rw [List.cons_append]
        exact is_comment_line_cons_false (commentPrefix_append_space hk_cp _)
      have hsp : splitOnChar '=' ((a :: k2) ++ ' ' :: '=' :: ' ' :: (b :: v2)) =
          [(a :: k2) ++ [' '], ' ' :: b :: v2] := by
        have hshape : (a :: k2) ++ ' ' :: '=' :: ' ' :: (b :: v2) =
            ((a :: k2) ++ [' ']) ++ '=' :: (' ' :: b :: v2) := by simp
        rw [hshape, splitOnChar_append hkeq2, splitOnChar_not_mem (by
          intro hmem
          rcases List.mem_cons.1 hmem with h | h
          · exact absurd h (by decide)
          · exact hv_eq h)]
      rw [parse_line_eval ht hcc hsp, hkey, trimSpace_space_cons hv_trim]
      rfl

theorem store_shift (l : Store) : ∀ buf : Str,
    l.foldl (fun b q => b ++ line q.1 q.2) buf = buf ++ store l := by
  induction l with
  | nil => intro buf; simp [store]
  | cons q l2 ih =>
    intro buf
    rw [List.foldl_cons, ih]
    conv_rhs => rw [store, List.foldl_cons, List.nil_append, ih]
    rw [List.append_assoc]

theorem store_cons (p : Str × Str) (st : Store) :
    store (p :: st) = line p.1 p.2 ++ store st := by
  rw [store, List.foldl_cons, List.nil_append, store_shift]

theorem load_nil (st : Store) : load st [] = some st := by
  rw [load, linesOf_nil]
  rfl

theorem load_cons_line {l : Str} (hnl : '\n' ∉ l) (r : Str) (st : Store) :
    load st (l ++ '\n' :: r) = (parse_line st l).bind (fun st2 => load st2 r) := by
  cases hp : parse_line st l <;>
    simp [load, linesOf_append hnl, List.foldlM_cons, hp]

theorem parse_line_frame {st st2 : Store} {l k : Str} (hp : parse_line st l = some st2)
    (hk : lineKeyOf l ≠ some k) : lookupKV st2 k = lookupKV st k := by
  cases hc : is_comment_line (trimSpace l) with
  | true =>
    rw [parse_line_comment hc] at hp
    injection hp with h2
    rw [← h2]
  | false =>
    by_cases he : '=' ∈ trimSpace l
    · rw [parse_line_data hc he] at hp
      injection hp with h2
      have hkk : trimSpace (takeUntil '=' (trimSpace l)) ≠ k := by
        intro hceq
        apply hk
        simp [lineKeyOf, hc, hceq]
      rw [← h2]
      exact lookup_insert_ne (fun hkk2 => hkk hkk2.symm) st _
    · rw [parse_line_no_eq hc he] at hp
      cases hp

theorem foldlM_parse_frame (ls : List Str) : ∀ st st2 : Store, ∀ k : Str,
    List.foldlM parse_line st ls = some st2 →
    (∀ l ∈ ls, lineKeyOf l ≠ some k) →
    lookupKV st2 k = lookupKV st k := by
  induction ls with
  | nil =>
    intro st st2 k h _
    simp only [List.foldlM_nil] at h
    injection h with h2
    rw [h2]
  | cons l ls2 ih =>
    intro st st2 k h hk
    rw [List.foldlM_cons] at h
    cases hp : parse_line st l with
    | none => rw [hp] at h; simp at h
    | some st1 =>
      rw [hp] at h
      simp only [Option.bind_eq_bind, Option.some_bind] at h
      have h1 : lookupKV st1 k = lookupKV st k := parse_line_frame hp (hk l (by simp))
      rw [ih st1 st2 k h (fun l2 hl2 => hk l2 (List.mem_cons_of_mem _ hl2)), h1]

theorem keys_nodup_parse_line {st st2 : Store} {l : Str} (hn : KeysNodup st)
    (hp : parse_line st l = some st2) : KeysNodup st2 := by
  cases hc : is_comment_line (trimSpace l) with
  | true =>
    rw [parse_line_comment hc] at hp
    injection hp with h2
    rw [← h2]
    exact hn
  | false =>
    by_cases he : '=' ∈ trimSpace l
    · rw [parse_line_data hc he] at hp
      injection hp with h2
      rw [← h2]
      exact keys_nodup_insert hn
    · rw [parse_line_no_eq hc he] at hp
      cases hp

theorem keys_nodup_foldlM (ls : List Str) : ∀ st st2 : Store, KeysNodup st →
    List.foldlM parse_line st ls = some st2 → KeysNodup st2 := by
  induction ls with
  | nil =>
    intro st st2 hn h
    simp only [List.foldlM_nil] at h
    injection h with h2
    rw [← h2]
    exact hn
  | cons l ls2 ih =>
    intro st st2 hn h
    rw [List.foldlM_cons] at h
    cases hp : parse_line st l with
    | none => rw [hp] at h; simp at h
    | some st1 =>
      rw [hp] at h
      simp only [Option.bind_eq_bind, Option.some_bind] at h
      exact ih st1 st2 (keys_nodup_parse_line hn hp) h

theorem keys_nodup_reachable {st : Store} (h : Reachable st) : KeysNodup st := by
  induction h with
  | empty => simp [KeysNodup]
  | set st k v _ ih => exact keys_nodup_insert ih
  | setSlice st k vs _ ih => exact keys_nodup_insert ih
  | loadOk st s st2 _ hl ih => exact keys_nodup_foldlM (linesOf s) st st2 ih hl

theorem mem_names_iff_lookup (st : Store) (k : Str) :
    k ∈ property_names st ↔ ∃ v, lookupKV st k = some v :=
  ⟨lookup_some_of_mem, fun h => h.elim (fun _ hv => mem_of_lookup_some hv)⟩

theorem load_store (st : Store) : ∀ st0 : Store,
    (∀ p ∈ st, trimSpace p.1 = p.1 ∧ trimSpace p.2 = p.2 ∧ '=' ∉ p.1 ∧ '=' ∉ p.2 ∧
      '\n' ∉ p.1 ∧ '\n' ∉ p.2 ∧ commentPrefix p.1 = false) →
    load st0 (store st) = some (st.foldl (fun acc p => insertKV acc p.1 p.2) st0) := by
  induction st with
  | nil => intro st0 _; exact load_nil st0
  | cons p rest ih =>
    intro st0 h
    obtain ⟨k, v⟩ := p
    obtain ⟨h1, h2, h3, h4, h5, h6, h7⟩ := h (k, v) (List.mem_cons_self _ _)
    have hbody : store ((k, v) :: rest) = (k ++ str (" = ") ++ v) ++ '\n' :: store rest := by
      rw [store_cons]
      simp [line, List.append_assoc]
    have hnl : '\n' ∉ k ++ str (" = ") ++ v := by
      intro hmem
      rcases List.mem_append.1 hmem with hm1 | hm2
      · rcases List.mem_append.1 hm1 with hm3 | hm4
        · exact h5 hm3
        · exact absurd hm4 (by decide)
      · exact h6 hm2
    rw [hbody, load_cons_line hnl, parse_line_line st0 h1 h2 h3 h4 h7]
    simp only [Option.some_bind]
    rw [List.foldl_cons]
    exact ih (insertKV st0 k v) (fun q hq => h q (List.mem_cons_of_mem _ hq))

theorem foldl_insert_append (st : Store) : ∀ acc : Store, KeysNodup st →
    (∀ k2 ∈ property_names st, k2 ∉ property_names acc) →
    st.foldl (fun acc2 p => insertKV acc2 p.1 p.2) acc = acc ++ st := by
  induction st with
  | nil => intro acc _ _; simp
  | cons p rest ih =>
    intro acc hn hd
    obtain ⟨k, v⟩ := p
    rw [List.foldl_cons]
    have hkacc : k ∉ property_names acc := hd k (by simp [property_names])
    rw [insert_append_of_not_mem hkacc]
    simp only [KeysNodup, List.map_cons, List.nodup_cons] at hn
    have hd2 : ∀ k2 ∈ property_names rest, k2 ∉ property_names (acc ++ [(k, v)]) := by
      intro k2 hk2 hmem
      simp only [property_names, List.map_append, List.mem_append, List.map_cons,
        List.map_nil, List.mem_cons, List.not_mem_nil, or_false] at hmem
      rcases hmem with hm1 | hm2
      · exact hd k2 (by
          simp only [property_names, List.map_cons, List.mem_cons]
          exact Or.inr hk2) hm1
      · rw [hm2] at hk2
        exact hn.1 hk2
    rw [ih (acc ++ [(k, v)]) hn.2 hd2, List.append_assoc]
    rfl

theorem count_eq_one_of_mem_nodup {k : Str} {l : List Str} (hn : l.Nodup) (hm : k ∈ l) :
    l.count k = 1 := by
  induction l with
  | nil => cases hm
  | cons x xs ih =>
    simp only [List.nodup_cons] at hn
    rcases List.mem_cons.1 hm with he | hmem
    · subst he
      rw [List.count_cons_self, List.count_eq_zero.2 hn.1]
    · have hne2 : k ≠ x := fun he => hn.1 (he ▸ hmem)
      rw [List.count_cons_of_ne hne2, ih hn.2 hmem]

/-- Claim C1: the spec requires that an input stream containing a non-blank,
non-comment line with no `=` (here `"NoEqualsHere\nY = 2\n"`) must not crash
the process, later lines must still be processed (Y -> 2) and load must
return normally.  The code violates this: `parse_line` indexes the unchecked
`split_strs[1]`, which panics on the `=`-free line and aborts the whole load
(modelled as `none`), so no entry at all is produced. -/
theorem claim_C1 : load ([] : Store) (str ("NoEqualsHere\nY = 2\n")) = none := by decide

/-- Claim C2 counterexample: on the line `"a = b=c"` the parsed value is
`"b"`, not the whole trimmed remainder `"b=c"` that the claim predicts,
because `strings::Split` splits on every `=` and the code keeps piece 1. -/
theorem claim_C2_counterexample :
    parse_line ([] : Store) (str ("a = b=c")) = some [(str ("a"), str ("b"))] ∧
    parse_line ([] : Store) (str ("a = b=c")) ≠ some [(str ("a"), str ("b=c"))] := by
  constructor
  · decide
  · decide

/-- Claim C2 (amended): for every non-blank, non-comment line containing at
least one `=`, parsing yields the key equal to the whitespace-trimmed text
before the first `=`, and the value equal to the whitespace-trimmed text
strictly between the first `=` and the following `=` (or the end of the line
when the first `=` is the only one) — not the entire remainder of the line. -/
theorem claim_C2 (st : Store) (l : Str)
    (hc : is_comment_line (trimSpace l) = false) (he : '=' ∈ trimSpace l) :
    parse_line st l = some (set_property st
      (trimSpace (takeUntil '=' (trimSpace l)))
      (trimSpace (takeUntil '=' ((dropUntil '=' (trimSpace l)).tail)))) :=
  parse_line_data hc he

/-- Claim C2 witness: the spec example `"  X   =   hello world  "` parses to
X -> "hello world" (one `=`, so the second split piece runs to end of line). -/
theorem claim_C2_witness :
    parse_line ([] : Store) (str ("  X   =   hello world  ")) =
      some [(str ("X"), str ("hello world"))] := by
  have h := claim_C2 ([] : Store) (str ("  X   =   hello world  ")) (by decide) (by decide)
  rw [h]
  decide

/-- Claim C3 counterexample: after the documented set/set/setList sequence,
storing and re-loading does not reproduce the MongoServer connection string:
its `=mytest` tail is lost (value text after a second `=` is dropped). -/
theorem claim_C3_counterexample :
    (load ([] : Store) (store (set_property_slice (set_property (set_property []
          (str ("HttpPort")) (str ("8081")))
          (str ("MongoServer")) (str ("mongodb://10.11.1.5,10.11.1.6,10.11.1.7/?replicaSet=mytest")))
          (str ("LogLevel")) [str ("Debug"), str ("Info"), str ("Warn")]))).bind
        (fun st2 => property st2 (str ("MongoServer"))) ≠
      some (str ("mongodb://10.11.1.5,10.11.1.6,10.11.1.7/?replicaSet=mytest")) := by
  decide

/-- Claim C3 (amended): after set("HttpPort","8081"),
set("MongoServer","mongodb://10.11.1.5,10.11.1.6,10.11.1.7/?replicaSet=mytest"),
setList("LogLevel",["Debug","Info","Warn"]), then storing and loading the
output into a fresh store, the fresh store satisfies get("HttpPort") = "8081"
and getList("LogLevel") = ["Debug","Info","Warn"], but get("MongoServer") is
the original connection string truncated at its second `=`, namely
"mongodb://10.11.1.5,10.11.1.6,10.11.1.7/?replicaSet". -/
theorem claim_C3 :
    (load ([] : Store) (store (set_property_slice (set_property (set_property []
          (str ("HttpPort")) (str ("8081")))
          (str ("MongoServer")) (str ("mongodb://10.11.1.5,10.11.1.6,10.11.1.7/?replicaSet=mytest")))
          (str ("LogLevel")) [str ("Debug"), str ("Info"), str ("Warn")]))).bind
        (fun st2 => property st2 (str ("HttpPort"))) = some (str ("8081")) ∧
    (load ([] : Store) (store (set_property_slice (set_property (set_property []
          (str ("HttpPort")) (str ("8081")))
          (str ("MongoServer")) (str ("mongodb://10.11.1.5,10.11.1.6,10.11.1.7/?replicaSet=mytest")))
          (str ("LogLevel")) [str ("Debug"), str ("Info"), str ("Warn")]))).bind
        (fun st2 => property_slice st2 (str ("LogLevel"))) =
      some [str ("Debug"), str ("Info"), str ("Warn")] ∧
    (load ([] : Store) (store (set_property_slice (set_property (set_property []
          (str ("HttpPort")) (str ("8081")))
          (str ("MongoServer")) (str ("mongodb://10.11.1.5,10.11.1.6,10.11.1.7/?replicaSet=mytest")))
          (str ("LogLevel")) [str ("Debug"), str ("Info"), str ("Warn")]))).bind
        (fun st2 => property st2 (str ("MongoServer"))) =
      some (str ("mongodb://10.11.1.5,10.11.1.6,10.11.1.7/?replicaSet")) := by
  refine ⟨by decide, by decide, by decide⟩

/-- Claim C4 counterexample: two stores satisfying all the claim conditions
(no `=`, no `,`, no newline in keys or values) that do not survive a
store/load round trip: a key starting with `#` serializes to a line that
reloads as a comment (the entry vanishes), and a key with leading whitespace
comes back trimmed (a different key). -/
theorem claim_C4_counterexample :
    load ([] : Store) (store [(str ("#a"), str ("b"))]) = some [] ∧
    load ([] : Store) (store [(str (" a"), str ("b"))]) = some [(str ("a"), str ("b"))] := by
  constructor
  · decide
  · decide

/-- Claim C4 (amended): for every store with pairwise-distinct keys whose
keys and values contain no `=` and no embedded newline, are unchanged by
whitespace trimming, and whose keys do not start with `#`, `//` or `/*`,
running store and then load of the produced bytes into a fresh empty store
yields exactly the original mapping. -/
theorem claim_C4 (st : Store) (hn : KeysNodup st)
    (hgood : ∀ p ∈ st, trimSpace p.1 = p.1 ∧ trimSpace p.2 = p.2 ∧ '=' ∉ p.1 ∧ '=' ∉ p.2 ∧
      '\n' ∉ p.1 ∧ '\n' ∉ p.2 ∧ commentPrefix p.1 = false) :
    load ([] : Store) (store st) = some st := by
  rw [load_store st [] hgood, foldl_insert_append st [] hn (by simp [property_names])]
  rfl

/-- Claim C4 witness: a concrete two-entry store meeting the amended
conditions round-trips through store and load unchanged. -/
theorem claim_C4_witness :
    load ([] : Store) (store [(str ("A"), str ("1")), (str ("B"), str ("x y"))]) =
      some [(str ("A"), str ("1")), (str ("B"), str ("x y"))] :=
  claim_C4 _ (by decide) (by decide)

/-- Claim C5: for every key and non-empty list of comma-free values,
set_property_slice stores the values joined with `,`, and property_slice
returns exactly the original list (split on `,`, no trimming). -/
theorem claim_C5 (st : Store) (k : Str) (vs : List Str) (hne : vs ≠ [])
    (hc : ∀ e ∈ vs, ',' ∉ e) :
    property (set_property_slice st k vs) k = some (joinSep ',' vs) ∧
    property_slice (set_property_slice st k vs) k = some vs := by
  have h := lookup_insert_self st k (joinSep ',' vs)
  refine ⟨h, ?_⟩
  show (lookupKV (insertKV st k (joinSep ',' vs)) k).map (fun v => splitOnChar ',' v) = some vs
  rw [h, Option.map_some', splitOnChar_joinSep hne hc]

/-- Claim C5 witness: setList then getList on ["Debug","Info","Warn"] stores
"Debug,Info,Warn" and returns the original three elements. -/
theorem claim_C5_witness :
    property (set_property_slice ([] : Store) (str ("LogLevel"))
        [str ("Debug"), str ("Info"), str ("Warn")]) (str ("LogLevel")) =
      some (str ("Debug,Info,Warn")) ∧
    property_slice (set_property_slice ([] : Store) (str ("LogLevel"))
        [str ("Debug"), str ("Info"), str ("Warn")]) (str ("LogLevel")) =
      some [str ("Debug"), str ("Info"), str ("Warn")] := by
  have h := claim_C5 ([] : Store) (str ("LogLevel"))
    [str ("Debug"), str ("Info"), str ("Warn")] (by decide) (by decide)
  exact ⟨h.1.trans (by decide), h.2⟩

/-- Claim C6: lines that are blank after trimming, or whose trimmed content
starts with `#`, `//` or `/*`, contribute no entry to the store; and loading
"# comment\n\n  \nA = 1\n" into an empty store yields exactly A -> "1". -/
theorem claim_C6 :
    (∀ (st : Store) (l : Str), is_comment_line (trimSpace l) = true →
      parse_line st l = some st) ∧
    load ([] : Store) (str ("# comment\n\n  \nA = 1\n")) =
      some [(str ("A"), str ("1"))] := by
  constructor
  · intro st l h
    exact parse_line_comment h
  · decide

/-- Claim C6 witness: a comment line leaves a concrete store untouched. -/
theorem claim_C6_witness :
    parse_line [(str ("K"), str ("V"))] (str ("  // note ")) =
      some [(str ("K"), str ("V"))] :=
  claim_C6.1 _ _ (by decide)

/-- Claim C7: setting the same key twice leaves the second value and the key
occurs exactly once in property_names (overwrite, no duplicate). -/
theorem claim_C7 (st : Store) (k v1 v2 : Str) (hn : KeysNodup st) :
    property (set_property (set_property st k v1) k v2) k = some v2 ∧
    (property_names (set_property (set_property st k v1) k v2)).count k = 1 := by
  constructor
  · exact lookup_insert_self _ k v2
  · have hn2 : KeysNodup (set_property (set_property st k v1) k v2) :=
      keys_nodup_insert (keys_nodup_insert hn)
    have hmem : k ∈ property_names (set_property (set_property st k v1) k v2) :=
      mem_keys_insert.2 (Or.inl rfl)
    exact count_eq_one_of_mem_nodup hn2 hmem

/-- Claim C7 witness: overwriting key "k" on a concrete store leaves "v2"
and one occurrence of "k" among the names. -/
theorem claim_C7_witness :
    property (set_property (set_property [(str ("Z"), str ("0"))] (str ("k")) (str ("v1")))
        (str ("k")) (str ("v2"))) (str ("k")) = some (str ("v2")) ∧
    (property_names (set_property (set_property [(str ("Z"), str ("0"))] (str ("k")) (str ("v1")))
        (str ("k")) (str ("v2")))).count (str ("k")) = 1 :=
  claim_C7 _ _ _ _ (by decide)

/-- Claim C8: on the empty store both lookups return none for every key;
on any store an absent key yields none from both property and
property_slice, and a present key's property lookup returns the stored
value. -/
theorem claim_C8 (st : Store) (k v : Str) :
    property ([] : Store) k = none ∧ property_slice ([] : Store) k = none ∧
    (k ∉ property_names st → property st k = none ∧ property_slice st k = none) ∧
    (KeysNodup st → (k, v) ∈ st → property st k = some v) := by
  refine ⟨rfl, rfl, fun h => ⟨lookup_eq_none_of_not_mem h, ?_⟩,
    fun hn hm => lookup_of_mem_nodup hn hm⟩
  show (lookupKV st k).map (fun v => splitOnChar ',' v) = none
  rw [lookup_eq_none_of_not_mem h]
  rfl

/-- Claim C8 witness: on the store A -> 1, the key "absent" yields none from
both lookups and the key "A" yields its stored value. -/
theorem claim_C8_witness :
    property [(str ("A"), str ("1"))] (str ("absent")) = none ∧
    property_slice [(str ("A"), str ("1"))] (str ("absent")) = none ∧
    property [(str ("A"), str ("1"))] (str ("A")) = some (str ("1")) :=
  ⟨((claim_C8 [(str ("A"), str ("1"))] (str ("absent")) (str ("x"))).2.2.1 (by decide)).1,
   ((claim_C8 [(str ("A"), str ("1"))] (str ("absent")) (str ("x"))).2.2.1 (by decide)).2,
   (claim_C8 [(str ("A"), str ("1"))] (str ("A")) (str ("1"))).2.2.2 (by decide) (by decide)⟩

/-- Claim C9: when load completes normally, every key present before the
load whose key does not occur in the input stream keeps its original value:
load adds or overwrites but never removes. -/
theorem claim_C9 (st st2 : Store) (s k v : Str) (hload : load st s = some st2)
    (hv : property st k = some v) (hk : k ∉ inputKeys s) : property st2 k = some v := by
  have hall : ∀ l ∈ linesOf s, lineKeyOf l ≠ some k := by
    intro l hl hsome
    exact hk (List.mem_filterMap.2 ⟨l, hl, hsome⟩)
  have h := foldlM_parse_frame (linesOf s) st st2 k hload hall
  show lookupKV st2 k = some v
  rw [h]
  exact hv

/-- Claim C9 witness: loading "B = 2\n" into the store A -> 1 keeps A -> 1. -/
theorem claim_C9_witness :
    property [(str ("A"), str ("1")), (str ("B"), str ("2"))] (str ("A")) =
      some (str ("1")) :=
  claim_C9 [(str ("A"), str ("1"))] [(str ("A"), str ("1")), (str ("B"), str ("2"))]
    (str ("B = 2\n")) (str ("A")) (str ("1")) (by decide) (by decide) (by decide)

/-- Claim C10: in every reachable store state the names list has no
duplicates, and a key appears among the names exactly when property returns
some value; the invariant is preserved by set_property, set_property_slice
and load (the constructors of Reachable). -/
theorem claim_C10 (st : Store) (h : Reachable st) :
    (property_names st).Nodup ∧
    ∀ k, k ∈ property_names st ↔ ∃ v, property st k = some v :=
  ⟨keys_nodup_reachable h, fun k => mem_names_iff_lookup st k⟩

/-- Claim C10 witness: the store reached by two set_property calls from the
empty store has duplicate-free names and its key "a" is both listed and
mapped. -/
theorem claim_C10_witness :
    (property_names (set_property (set_property ([] : Store) (str ("a")) (str ("1")))
        (str ("b")) (str ("2")))).Nodup ∧
    ((str ("a")) ∈ property_names (set_property (set_property ([] : Store) (str ("a")) (str ("1")))
        (str ("b")) (str ("2"))) ↔
      ∃ v, property (set_property (set_property ([] : Store) (str ("a")) (str ("1")))
        (str ("b")) (str ("2"))) (str ("a")) = some v) := by
  have h := claim_C10 _ (Reachable.set _ (str ("b")) (str ("2"))
    (Reachable.set _ (str ("a")) (str ("1")) Reachable.empty))
  exact ⟨h.1, h.2 (str ("a"))⟩

end GostdSettings
